import Mathlib

/-!
Verification of the typst-project repository's project-root heuristics and
manifest string grammars, shallowly embedded from the Rust source.

Modules covered:
 - `src/heuristics.rs`: the `Heuristic`/`Heuristics` registry, the directory
   matcher `potential_root_dir_entry`, `project_root`, and the ancestor walk
   `try_find_project_root`, over an explicit filesystem-tree model.
 - `src/manifest/author.rs` with `author/github_handle.rs` and `website.rs`:
   the author mini-grammar and its contact sub-grammars.
 - `src/manifest/license.rs`: the OSI/referencer policy layer over an
   abstract SPDX parse result.
-/

/-! ## Filesystem model

Rust's `std::fs` is modelled by a finite tree. A `DirEntry` is a pair of the
entry name and its node; `entry.file_type()` is read off the node, and
`fs::read_dir` fails (an `io::Error`) when the path does not name a directory
in the tree. -/

/-- A node of the modelled filesystem: a regular file, a directory with an
ordered listing, or anything else (e.g. a symlink/socket, for which both
`is_dir` and `is_file` are false). -/
inductive FsNode where
  | file : FsNode
  | dir (entries : List (String × FsNode)) : FsNode
  | other : FsNode

/-- The single modelled I/O failure: `fs::read_dir` on a path that is not a
directory of the tree (missing, or a non-directory node). Carries the path so
theorems can show which listing the code attempted. -/
inductive IoError where
  | notADir (path : List String) : IoError
deriving DecidableEq

/-- Decidable equality for `Except`, used to state results of fallible
operations concretely. -/
instance {ε α : Type} [DecidableEq ε] [DecidableEq α] : DecidableEq (Except ε α) := fun a b =>
  match a, b with
  | .ok x, .ok y => if h : x = y then .isTrue (by rw [h]) else .isFalse (by simp [h])
  | .error x, .error y => if h : x = y then .isTrue (by rw [h]) else .isFalse (by simp [h])
  | .ok _, .error _ => .isFalse (by simp)
  | .error _, .ok _ => .isFalse (by simp)

/-- First entry in the listing with the given name. -/
def findEntry : List (String × FsNode) → String → Option FsNode
  | [], _ => none
  | (n, node) :: rest, s => if n = s then some node else findEntry rest s

/-- Resolve a path (list of segments) from a node. -/
def FsNode.lookup (n : FsNode) : List String → Option FsNode
  | [] => some n
  | s :: rest =>
    match n with
    | .dir es =>
      match findEntry es s with
      | some child => child.lookup rest
      | none => none
    | _ => none

/-- `fs::read_dir`: the listing of the directory at `path`, or an error. -/
def readDir (root : FsNode) (path : List String) : Except IoError (List (String × FsNode)) :=
  match root.lookup path with
  | some (.dir es) => .ok es
  | _ => .error (.notADir path)

/-! ## Heuristic registry (`src/heuristics.rs`)

The typstfmt feature is not enabled in the default build; the `#[cfg]`-gated
`TypstfmtConfig` variant and table row are omitted accordingly. -/

/-- `enum Heuristic` (default features). -/
inductive Heuristic where
  | mainFile (src : Bool) : Heuristic
  | libFile (src : Bool) : Heuristic
  | manifestFile : Heuristic
deriving DecidableEq

/-- The `Heuristics` bit-flag constants, exactly as the `bitflags!` block
declares them: note that `MAIN_FILE` and `LIB_FILE` are both `1 << 0`. -/
def Heuristics.MAIN_FILE : Nat := 1 <<< 0

/-- `const LIB_FILE = 1 << 0;` — the same bit as `MAIN_FILE` in the source. -/
def Heuristics.LIB_FILE : Nat := 1 <<< 0

/-- `const SRC_FOLDER = 1 << 1;` -/
def Heuristics.SRC_FOLDER : Nat := 1 <<< 1

/-- `const MANIFEST_FILE = 1 << 2;` -/
def Heuristics.MANIFEST_FILE : Nat := 1 <<< 2

/-- `const RECOMMENDED = Self::MANIFEST_FILE.bits();` (default features). -/
def Heuristics.RECOMMENDED : Nat := Heuristics.MANIFEST_FILE

/-- `bitflags` `contains`: `self.bits & other.bits == other.bits`. -/
def Heuristics.contains (self other : Nat) : Bool := self &&& other == other

/-- `impl From<Heuristic> for Heuristics`. -/
def Heuristic.toFlags : Heuristic → Nat
  | .mainFile false => Heuristics.MAIN_FILE
  | .libFile false => Heuristics.LIB_FILE
  | .mainFile true => Heuristics.MAIN_FILE ||| Heuristics.SRC_FOLDER
  | .libFile true => Heuristics.LIB_FILE ||| Heuristics.SRC_FOLDER
  | .manifestFile => Heuristics.MANIFEST_FILE

/-- `ROOT_FILES` (default features), in table order. -/
def ROOT_FILES : List (String × Heuristic) :=
  [("main.typ", .mainFile false), ("lib.typ", .libFile false), ("typst.toml", .manifestFile)]

/-- The inner loop of `potential_root_dir_entry` over the listing obtained for
a directory entry named `src`: aborts with no match on the first non-file
entry, otherwise matches the names `main.typ` and `lib.typ` only. -/
def scanSrcEntries : List (String × FsNode) → Option Heuristic
  | [] => none
  | (name, node) :: rest =>
    match node with
    | .file =>
      if name = "main.typ" then some (.mainFile true)
      else if name = "lib.typ" then some (.libFile true)
      else scanSrcEntries rest
    | _ => none

/-- `ROOT_FILES.iter().filter(|(_, h)| heuristics.contains(h.into())).find_map(...)`:
the first table row whose heuristic is wanted and whose name equals `name`. -/
def findInTable (heuristics : Nat) (name : String) : List (String × Heuristic) → Option Heuristic
  | [] => none
  | (f, h) :: rest =>
    if Heuristics.contains heuristics h.toFlags && name = f then some h
    else findInTable heuristics name rest

/-- `potential_root_dir_entry(entry, heuristics)` for the entry `(name, node)`
of the listing of `dirPath`. For a directory named `src` (when `SRC_FOLDER` is
wanted) the source calls `fs::read_dir(entry.path().join("src"))`; since
`entry.path()` is already `dirPath/name`, the listing read is
`dirPath ++ [name, "src"]`. -/
def potential_root_dir_entry (root : FsNode) (dirPath : List String) (name : String)
    (node : FsNode) (heuristics : Nat) : Except IoError (Option Heuristic) :=
  match node with
  | .dir _ =>
    if Heuristics.contains heuristics Heuristics.SRC_FOLDER && name = "src" then
      match readDir root (dirPath ++ [name, "src"]) with
      | .error e => .error e
      | .ok entries => .ok (scanSrcEntries entries)
    else .ok none
  | .file => .ok (findInTable heuristics name ROOT_FILES)
  | .other => .ok none

/-- The loop of `project_root::inner`, accumulating matched flags into `res`.
Stops early after any match when `first` is set, or once the accumulated set
equals the wanted set. -/
def projectRootGo (root : FsNode) (path : List String) (heuristics : Nat) (first : Bool) :
    List (String × FsNode) → Nat → Except IoError Nat
  | [], res => .ok res
  | (name, node) :: rest, res =>
    match potential_root_dir_entry root path name node heuristics with
    | .error e => .error e
    | .ok none => projectRootGo root path heuristics first rest res
    | .ok (some h) =>
      let res' := res ||| h.toFlags
      if first || res' == heuristics then .ok res'
      else projectRootGo root path heuristics first rest res'

/-- `project_root(path, heuristics, first)`. -/
def project_root (root : FsNode) (path : List String) (heuristics : Nat) (first : Bool) :
    Except IoError Nat :=
  match readDir root path with
  | .error e => .error e
  | .ok entries => projectRootGo root path heuristics first entries 0

/-- Helper for `ancestors`, recursing on the reversed segment list. -/
def ancestorsAux : List String → List (List String)
  | [] => [[]]
  | s :: rest => (s :: rest).reverse :: ancestorsAux rest

/-- `Path::ancestors`: the path itself, then each parent, down to the empty
path, nearest first. -/
def ancestors (path : List String) : List (List String) := ancestorsAux path.reverse

/-- The loop of `try_find_project_root` over the ancestor list: return the
first ancestor whose `project_root` result is non-empty. -/
def tryFindGo (root : FsNode) (heuristics : Nat) (any : Bool) :
    List (List String) → Except IoError (Option (List String × Nat))
  | [] => .ok none
  | a :: rest =>
    match project_root root a heuristics any with
    | .error e => .error e
    | .ok returned =>
      if returned != 0 then .ok (some (a, returned))
      else tryFindGo root heuristics any rest

/-- `try_find_project_root(path, heuristics, any)`. -/
def try_find_project_root (root : FsNode) (path : List String) (heuristics : Nat)
    (any : Bool) : Except IoError (Option (List String × Nat)) :=
  tryFindGo root heuristics any (ancestors path)

/-! ## Scanner primitives (`unscanny::Scanner`)

Strings are modelled as `List Char`; `Scanner::eat_until(c)` consumes (and
returns) everything before the first occurrence of `c`, leaving `c` uneaten,
and `eat_if(c)` consumes a single matching character. -/

/-- `Scanner::eat_until(t)`: the consumed prefix and the remaining input. -/
def eatUntil (t : Char) (l : List Char) : List Char × List Char :=
  (l.takeWhile (fun c => c != t), l.dropWhile (fun c => c != t))

/-- `Scanner::eat_if(t)`: whether a `t` was eaten, and the remaining input. -/
def eatIf (t : Char) (l : List Char) : Bool × List Char :=
  match l with
  | c :: rest => if c = t then (true, rest) else (false, c :: rest)
  | [] => (false, [])

/-- The code points Rust's `str::trim` strips: the Unicode `White_Space`
property. -/
def isRustWhitespace (c : Char) : Bool :=
  (0x09 ≤ c.toNat && c.toNat ≤ 0x0D) || c.toNat == 0x20 || c.toNat == 0x85 ||
    c.toNat == 0xA0 || c.toNat == 0x1680 || (0x2000 ≤ c.toNat && c.toNat ≤ 0x200A) ||
    c.toNat == 0x2028 || c.toNat == 0x2029 || c.toNat == 0x202F || c.toNat == 0x205F ||
    c.toNat == 0x3000

/-- `str::trim`: strip whitespace from both ends. -/
def trim (l : List Char) : List Char :=
  ((l.dropWhile isRustWhitespace).reverse.dropWhile isRustWhitespace).reverse

/-! ## GitHub-handle grammar (`src/manifest/author/github_handle.rs`) -/

/-- `ParseGitHubHandleError`. -/
inductive ParseGitHubHandleError where
  | TooLong : ParseGitHubHandleError
  | ContainsInvalidChar (c : Char) : ParseGitHubHandleError
  | StartedWithHyphen : ParseGitHubHandleError
  | EndedWithHyphen : ParseGitHubHandleError
  | ContainsConsecutiveHyphens : ParseGitHubHandleError
deriving DecidableEq

/-- Rust's `str::len`: the UTF-8 byte length. -/
def utf8Len (l : List Char) : Nat := (l.map Char.utf8Size).sum

/-- The `while !s.done()` scan of `is_valid_github_handle`, with the
`eat_while(is_ascii_alphanumeric)` run unrolled one character at a time:
an alphanumeric character is consumed and the scan continues; a `'-'`
immediately followed by another `'-'` fails (the `eat_if('-')` check), a
`'-'` followed by anything else is consumed alone and the scan continues;
any other character fails with itself. `Char.isAlphanum` tests exactly
ASCII alphanumerics, as `u8::is_ascii_alphanumeric` does. -/
def handleScanLoop : List Char → Except ParseGitHubHandleError Unit
  | [] => .ok ()
  | c :: rest =>
    if c.isAlphanum then handleScanLoop rest
    else if c = '-' then
      if rest.head? = some '-' then .error .ContainsConsecutiveHyphens
      else handleScanLoop rest
    else .error (.ContainsInvalidChar c)

/-- `is_valid_github_handle`. -/
def is_valid_github_handle (s : List Char) : Except ParseGitHubHandleError Unit :=
  if utf8Len s > 39 then .error .TooLong
  else if s.head? = some '-' then .error .StartedWithHyphen
  else if s.getLast? = some '-' then .error .EndedWithHyphen
  else handleScanLoop s

/-! ## Website grammar (`src/manifest/website.rs`) -/

/-- `ParseWebsiteError`. -/
inductive ParseWebsiteError where
  | ContainsInvalidChar : ParseWebsiteError
deriving DecidableEq

/-- `is_legal_in_website`, lifted from bytes to characters: the source checks
every UTF-8 byte, and a byte is legal iff it is ASCII alphanumeric or one of
the punctuation allow-list; every byte of a non-ASCII character is `≥ 0x80`
and hence illegal, so the byte-level check succeeds iff every character is an
ASCII-alphanumeric or allow-listed character. -/
def is_legal_in_website (c : Char) : Bool :=
  c.isAlphanum ||
    c ∈ ['-', '_', '.', '~', ':', '/', '?', '#', '[', ']', '@', '!', '$', '&', '\'',
         '(', ')', '*', '+', ',', ';', '=']

/-- `is_valid_website`. -/
def is_valid_website (s : List Char) : Except ParseWebsiteError Unit :=
  if s.all is_legal_in_website then .ok () else .error .ContainsInvalidChar

/-! ## Author grammar (`src/manifest/author.rs`)

Email-address parsing is delegated to the external `email_address` crate;
the model takes the external validator as a parameter. -/

/-- The external crate's error type, opaque to this repository. -/
structure ParseEmailError where
  code : Nat
deriving DecidableEq

/-- The external crate's validated email-address type, opaque content. -/
structure EmailAddress where
  addr : List Char
deriving DecidableEq

/-- `GitHubHandle` newtype (contents validated by `is_valid_github_handle`). -/
structure GitHubHandle where
  handle : List Char
deriving DecidableEq

/-- `Website` newtype (contents validated by `is_valid_website`). -/
structure Website where
  url : List Char
deriving DecidableEq

/-- `enum Contact`. -/
inductive Contact where
  | gitHubHandle (h : GitHubHandle) : Contact
  | website (w : Website) : Contact
  | email (e : EmailAddress) : Contact
deriving DecidableEq

/-- `struct Author`. -/
structure Author where
  name : List Char
  contact : Option Contact
deriving DecidableEq

/-- `ParseAuthorError`. -/
inductive ParseAuthorError where
  | invalidEmailAddress (e : ParseEmailError) : ParseAuthorError
  | invalidGithubHandle (e : ParseGitHubHandleError) : ParseAuthorError
  | invalidWebsite (e : ParseWebsiteError) : ParseAuthorError
  | unclosedContact : ParseAuthorError
  | emptyContact : ParseAuthorError
deriving DecidableEq

/-- `impl FromStr for Author`, parameterized by the external email validator
`emailParse`. Mirrors the source's order of checks: the contact body is read
with `eat_until('>')`, the empty-body check comes before the check that the
closing `'>'` was actually present, and the body is classified by prefix
(`strip_prefix('@')`, then `starts_with("http")`, otherwise email). -/
def Author.fromStr (emailParse : List Char → Except ParseEmailError EmailAddress)
    (s : List Char) : Except ParseAuthorError Author :=
  let (name, s1) := eatUntil '<' s
  let (openFound, s2) := eatIf '<' s1
  if openFound then
    let (contact, s3) := eatUntil '>' s2
    if contact.isEmpty then .error .emptyContact
    else if !(eatIf '>' s3).1 then .error .unclosedContact
    else
      -- `contact.strip_prefix('@')` succeeds exactly when the first character
      -- is `'@'`, and yields the rest of the body.
      if contact.head? = some '@' then
        match is_valid_github_handle contact.tail with
        | .ok () => .ok ⟨trim name, some (.gitHubHandle ⟨contact.tail⟩)⟩
        | .error e => .error (.invalidGithubHandle e)
      else if List.isPrefixOf ['h', 't', 't', 'p'] contact then
        match is_valid_website contact with
        | .ok () => .ok ⟨trim name, some (.website ⟨contact⟩)⟩
        | .error e => .error (.invalidWebsite e)
      else
        match emailParse contact with
        | .ok em => .ok ⟨trim name, some (.email em)⟩
        | .error e => .error (.invalidEmailAddress e)
  else .ok ⟨trim name, none⟩

/-- `impl Display for Author`: the source writes `write!(f, "")?` — an empty
string, not the name — followed by the bracketed contact when present, so the
name never reaches the output. `Serialize` for `Author` writes exactly this
display string, and `Deserialize` re-parses it with `Author::from_str`. -/
def Author.toChars (a : Author) : List Char :=
  match a.contact with
  | none => []
  | some (.gitHubHandle h) => " <@".toList ++ h.handle ++ ['>']
  | some (.website w) => " <".toList ++ w.url ++ ['>']
  | some (.email e) => " <".toList ++ e.addr ++ ['>']

/-! ## License policy (`src/manifest/license.rs`)

The SPDX expression parser is the external `spdx` crate, specified as a black
box: an expression is a list of leaf requirements in the crate's own
enumeration order, each either resolving to a concrete license id (carrying
its OSI-approval flag) or not (`LicenseRef-...` referencers). -/

/-- A concrete SPDX license id: only its OSI-approval flag is relevant here. -/
structure LicenseId where
  osi_approved : Bool
deriving DecidableEq

/-- One leaf requirement: `req.license.id()` is `none` for referencers. -/
structure LicenseReq where
  id : Option LicenseId
deriving DecidableEq

/-- A parsed SPDX expression: its leaf requirements in enumeration order. -/
structure Expression where
  requirements : List LicenseReq
deriving DecidableEq

/-- The external parser's error, opaque to this repository. -/
structure SpdxParseError where
  code : Nat
deriving DecidableEq

/-- `ParseLicenseError`. -/
inductive ParseLicenseError where
  | Expression (e : SpdxParseError) : ParseLicenseError
  | ContainsReferencer : ParseLicenseError
  | NotOSIApproved : ParseLicenseError
deriving DecidableEq

/-- The `for requirement in expr.requirements()` loop of `is_valid_license`. -/
def checkRequirements : List LicenseReq → Except ParseLicenseError Unit
  | [] => .ok ()
  | r :: rest =>
    match r.id with
    | none => .error .ContainsReferencer
    | some id => if !id.osi_approved then .error .NotOSIApproved else checkRequirements rest

/-- `is_valid_license`, over the outcome `parsed` of the external
`Expression::parse` (whose error is wrapped by the `#[from]` conversion). -/
def is_valid_license (parsed : Except SpdxParseError Expression) :
    Except ParseLicenseError Expression :=
  match parsed with
  | .error e => .error (.Expression e)
  | .ok expr =>
    match checkRequirements expr.requirements with
    | .error e => .error e
    | .ok () => .ok expr

/-! ## Reference definitions written from the spec's words, and concrete
inputs used by the theorems below -/

/-- The contact classification as §4.5 of the spec words it: a leading `@`
means a GitHub handle (validated with the `@` stripped), otherwise a leading
`http` means a website, otherwise the body is validated as an email address;
each sub-grammar failure is wrapped in its own distinguishable error. -/
def classifyContactSpec (emailParse : List Char → Except ParseEmailError EmailAddress)
    (body : List Char) : Except ParseAuthorError Contact :=
  if body.head? = some '@' then
    match is_valid_github_handle body.tail with
    | .ok () => .ok (.gitHubHandle ⟨body.tail⟩)
    | .error e => .error (.invalidGithubHandle e)
  else if List.isPrefixOf ['h', 't', 't', 'p'] body then
    match is_valid_website body with
    | .ok () => .ok (.website ⟨body⟩)
    | .error e => .error (.invalidWebsite e)
  else
    match emailParse body with
    | .ok em => .ok (.email em)
    | .error e => .error (.invalidEmailAddress e)

/-- The amended scan for the GitHub-handle grammar: a single left-to-right
pass whose first offending position decides the error — a hyphen immediately
followed by another hyphen yields `ContainsConsecutiveHyphens`, a character
that is neither ASCII alphanumeric nor a hyphen yields `ContainsInvalidChar`
with that character. -/
def githubHandleScanAmended : List Char → Except ParseGitHubHandleError Unit
  | [] => .ok ()
  | c :: rest =>
    if c = '-' then
      if rest.head? = some '-' then .error .ContainsConsecutiveHyphens
      else githubHandleScanAmended rest
    else if c.isAlphanum then githubHandleScanAmended rest
    else .error (.ContainsInvalidChar c)

/-- The amended GitHub-handle validator: UTF-8 length checked first, then the
leading-hyphen and trailing-hyphen checks, then the positional scan. -/
def is_valid_github_handle_amended (s : List Char) : Except ParseGitHubHandleError Unit :=
  if utf8Len s > 39 then .error .TooLong
  else if s.head? = some '-' then .error .StartedWithHyphen
  else if s.getLast? = some '-' then .error .EndedWithHyphen
  else githubHandleScanAmended s

/-- A stand-in for the external email validator that accepts everything;
theorems about inputs that never reach the email branch use it. -/
def okEmail : List Char → Except ParseEmailError EmailAddress := fun l => .ok ⟨l⟩

/-- A tree with `proj/typst.toml` and an (empty) subdirectory `proj/sub`. -/
def exampleFs : FsNode :=
  .dir [("proj", .dir [("typst.toml", .file), ("sub", .dir [])])]

/-- A tree with `proj/src/main.typ`, i.e. a source entrypoint one level below
`proj` inside a directory named `src`. -/
def srcFs : FsNode :=
  .dir [("proj", .dir [("src", .dir [("main.typ", .file)])])]

/-- A tree whose only content, `proj/readme.md`, matches no heuristic. -/
def noMarkerFs : FsNode :=
  .dir [("proj", .dir [("readme.md", .file)])]

/-- The author value `Martin <@reknih>` of the repository's own test suite. -/
def martinAuthor : Author := ⟨"Martin".toList, some (.gitHubHandle ⟨"reknih".toList⟩)⟩

/-! ## Sanity checks

The embedding reproduces the repository's own unit tests (`author.rs` and
`github_handle.rs` test modules) and the doc-comment behaviors. -/

example : ancestors ["proj", "sub"] = [["proj", "sub"], ["proj"], []] := by decide

example : try_find_project_root exampleFs ["proj", "sub"] Heuristics.MANIFEST_FILE true
    = .ok (some (["proj"], Heuristics.MANIFEST_FILE)) := by decide

example : Author.fromStr okEmail "Martin".toList = .ok ⟨"Martin".toList, none⟩ := by decide

example : Author.fromStr okEmail "Martin <@reknih>".toList
    = .ok ⟨"Martin".toList, some (.gitHubHandle ⟨"reknih".toList⟩)⟩ := by decide

example : Author.fromStr okEmail "Martin <https://mha.ug>".toList
    = .ok ⟨"Martin".toList, some (.website ⟨"https://mha.ug".toList⟩)⟩ := by decide

example : Author.fromStr okEmail "Martin <>".toList = .error .emptyContact := by decide

example : Author.fromStr okEmail "Martin <".toList = .error .emptyContact := by decide

example : Author.fromStr okEmail "Martin <martin@typst.app".toList
    = .error .unclosedContact := by decide

example : is_valid_github_handle "a!--b".toList = .error (.ContainsInvalidChar '!') := by decide

example : is_valid_github_handle [] = .ok () := by decide

example : Author.toChars ⟨"Martin".toList, some (.gitHubHandle ⟨"reknih".toList⟩)⟩
    = " <@reknih>".toList := by decide

/-! ## Scanner lemmas -/

/-- `eat_until(t)` on input with no `t`: everything is consumed. -/
theorem eatUntil_no_hit (t : Char) (l : List Char) (h : t ∉ l) : eatUntil t l = (l, []) := by
  induction l with
  | nil => rfl
  | cons c rest ih =>
    have hc : (c != t) = true := by
      simp only [bne_iff_ne, ne_eq]
      exact fun hct => h (hct ▸ List.mem_cons_self c rest)
    have hr : t ∉ rest := fun hm => h (List.mem_cons_of_mem _ hm)
    have := ih hr
    simp only [eatUntil, List.takeWhile_cons, List.dropWhile_cons, hc, if_true] at *
    simpa [Prod.ext_iff] using this

/-- `eat_until(t)` splits the input at the first `t`. -/
theorem eatUntil_hit (t : Char) (pre rest : List Char) (h : t ∉ pre) :
    eatUntil t (pre ++ t :: rest) = (pre, t :: rest) := by
  induction pre with
  | nil => simp [eatUntil, List.takeWhile_cons, List.dropWhile_cons]
  | cons c l ih =>
    have hc : (c != t) = true := by
      simp only [bne_iff_ne, ne_eq]
      exact fun hct => h (hct ▸ List.mem_cons_self c l)
    have hl : t ∉ l := fun hm => h (List.mem_cons_of_mem _ hm)
    have := ih hl
    simp only [eatUntil, List.cons_append, List.takeWhile_cons, List.dropWhile_cons, hc,
      if_true] at *
    simpa [Prod.ext_iff] using this

/-! ## Theorems for the claims -/

/-- C1: the claim says that on a directory entry named `src` (with the
src-folder heuristic wanted) the code lists `<ancestor>/src` itself. The code
instead joins `"src"` onto `entry.path()`, which is already `<ancestor>/src`,
so it lists `<ancestor>/src/src` — one level deeper than claimed. On a tree
containing `proj/src/main.typ` this read fails (no such directory), while the
one-level listing `proj/src` exists and its scan would have matched
`main.typ`. -/
theorem src_entry_listing_goes_two_levels_deep :
    potential_root_dir_entry srcFs ["proj"] "src" (.dir [("main.typ", .file)])
        (Heuristics.MAIN_FILE ||| Heuristics.SRC_FOLDER)
      = .error (.notADir ["proj", "src", "src"]) ∧
    (readDir srcFs ["proj", "src"]).toOption.map scanSrcEntries
      = some (some (.mainFile true)) := by decide

/-- C2: the conversion from `Heuristic` to flags is not injective — the
source declares `MAIN_FILE` and `LIB_FILE` as the same bit (`1 << 0`), so the
distinct heuristics `MainFile { src: false }` and `LibFile { src: false }`
map to identical flag sets, contradicting the claim that every distinct
heuristic gets a distinct bit combination. -/
theorem main_and_lib_flags_share_one_bit :
    Heuristic.toFlags (.mainFile false) = Heuristic.toFlags (.libFile false) ∧
    Heuristic.toFlags (.mainFile false) = 1 ∧
    Heuristic.mainFile false ≠ Heuristic.libFile false := by decide

/-- C3: the serialize-then-deserialize round trip does not preserve an
author's name. `Display for Author` writes `write!(f, "")` — the empty
string — instead of the name, so `Martin <@reknih>` serializes to
`" <@reknih>"`, which re-parses with an empty name. -/
theorem author_roundtrip_drops_name :
    Author.toChars martinAuthor = " <@reknih>".toList ∧
    Author.fromStr okEmail (Author.toChars martinAuthor)
      = .ok ⟨[], some (.gitHubHandle ⟨"reknih".toList⟩)⟩ ∧
    Author.fromStr okEmail (Author.toChars martinAuthor) ≠ .ok martinAuthor := by decide

/-- C9: both the GitHub-handle validator and the website validator accept the
empty string, and parsing `"Name <@>"` succeeds with an empty handle: the
contact body `"@"` is non-empty, survives the empty-body check, and the `@`
is stripped before validation. -/
theorem empty_handle_and_website_accepted :
    is_valid_github_handle [] = .ok () ∧
    is_valid_website [] = .ok () ∧
    Author.fromStr okEmail "Name <@>".toList
      = .ok ⟨"Name".toList, some (.gitHubHandle ⟨[]⟩)⟩ := by decide

/-- C10: when the first `<` is the last character of the input, the contact
body read by `eat_until('>')` is empty, and the empty-body check fires before
the missing-`>` check, so the error is `EmptyContact`, not
`UnclosedContact`. -/
theorem empty_contact_beats_unclosed (emailParse : List Char → Except ParseEmailError EmailAddress)
    (pre : List Char) (h : '<' ∉ pre) :
    Author.fromStr emailParse (pre ++ ['<']) = .error .emptyContact := by
  unfold Author.fromStr
  rw [show pre ++ ['<'] = pre ++ '<' :: [] from rfl, eatUntil_hit '<' pre [] h]
  simp [eatIf, eatUntil]

/-- Witness for C10 at the concrete input `"Name <"`. -/
theorem empty_contact_beats_unclosed_at_name :
    Author.fromStr okEmail ("Name ".toList ++ ['<']) = .error .emptyContact :=
  empty_contact_beats_unclosed okEmail "Name ".toList (by decide)

/-! ## Author-grammar theorems -/

/-- C8: for every input of the shape `pre ++ "<" ++ body ++ ">" ++ post` with
no `<` in `pre` (so `pre` is the text before the first `<`), no `>` in `body`
(the text between `<` and the first following `>`) and a non-empty `body`,
the parsed author has the whitespace-trimmed `pre` as name and the body
classified exactly as the spec describes — leading `@` strips and validates a
GitHub handle, else a leading `http` validates a website, else the body goes
to the email validator — with each sub-grammar's failure surfacing its own
wrapped error; and an input without `<` parses to its trimmed text with no
contact. -/
theorem author_name_split_and_prefix_classification :
    (∀ (emailParse : List Char → Except ParseEmailError EmailAddress)
       (pre body post : List Char), '<' ∉ pre → '>' ∉ body → body ≠ [] →
      Author.fromStr emailParse (pre ++ '<' :: (body ++ '>' :: post)) =
        (classifyContactSpec emailParse body).map fun c => ⟨trim pre, some c⟩) ∧
    (∀ (emailParse : List Char → Except ParseEmailError EmailAddress) (s : List Char),
      '<' ∉ s → Author.fromStr emailParse s = .ok ⟨trim s, none⟩) := by
  constructor
  · intro emailParse pre body post h1 h2 h3
    cases body with
    | nil => exact absurd rfl h3
    | cons c0 bs =>
      unfold Author.fromStr classifyContactSpec
      rw [eatUntil_hit '<' pre ((c0 :: bs) ++ '>' :: post) h1]
      simp only [eatIf, eq_self_iff_true, if_true, eatUntil_hit '>' (c0 :: bs) post h2,
        List.isEmpty_cons, Bool.false_eq_true, if_false, Bool.not_true, List.head?_cons,
        List.tail_cons]
      by_cases hat : c0 = '@'
      · subst hat
        simp only [if_pos rfl]
        cases is_valid_github_handle bs with
        | ok u => cases u; rfl
        | error e => rfl
      · have hat2 : ¬(some c0 = some '@') := fun hsome => hat (Option.some.inj hsome)
        simp only [if_neg hat2]
        by_cases hhttp : List.isPrefixOf ['h', 't', 't', 'p'] (c0 :: bs) = true
        · simp only [if_pos hhttp]
          cases is_valid_website (c0 :: bs) with
          | ok u => cases u; rfl
          | error e => rfl
        · simp only [if_neg hhttp]
          cases emailParse (c0 :: bs) with
          | ok em => rfl
          | error e => rfl
  · intro emailParse s h
    unfold Author.fromStr
    rw [eatUntil_no_hit '<' s h]
    cases s with
    | nil => rfl
    | cons c rest =>
      have hc : c ≠ '<' := fun hcc => h (hcc ▸ List.mem_cons_self c rest)
      simp only [eatIf, if_neg hc, Bool.false_eq_true, if_false]

/-- Witness for C8 at the concrete input `"Martin <@reknih>"`. -/
theorem author_split_at_martin_reknih :
    Author.fromStr okEmail ("Martin ".toList ++ '<' :: ("@reknih".toList ++ '>' :: [])) =
      (classifyContactSpec okEmail "@reknih".toList).map
        fun c => ⟨trim "Martin ".toList, some c⟩ :=
  author_name_split_and_prefix_classification.1 okEmail "Martin ".toList "@reknih".toList []
    (by decide) (by decide) (by decide)

/-! ## GitHub-handle scan lemmas -/

/-- The source's scan equals the amended positional scan: the two only test
the hyphen and alphanumeric cases in a different order, and the cases are
disjoint. -/
theorem handleScanLoop_eq_amended : ∀ s, handleScanLoop s = githubHandleScanAmended s := by
  intro s
  induction s with
  | nil => rfl
  | cons c rest ih =>
    by_cases hc : c = '-'
    · subst hc
      have halnum : ('-' : Char).isAlphanum = false := by decide
      by_cases hh : rest.head? = some '-'
      · simp [handleScanLoop, githubHandleScanAmended, halnum, hh]
      · simp [handleScanLoop, githubHandleScanAmended, halnum, hh, ih]
    · by_cases ha : c.isAlphanum
      · simp [handleScanLoop, githubHandleScanAmended, hc, ha, ih]
      · simp [handleScanLoop, githubHandleScanAmended, hc, ha]

/-- C6 counterexample: `"a!--b"` passes the length and edge-hyphen checks and
contains both an invalid character and a `"--"` substring; the claim's check
order predicts `ContainsConsecutiveHyphens`, but the scan reaches the `'!'`
first and reports `ContainsInvalidChar '!'`. -/
theorem invalid_char_reported_before_later_double_hyphen :
    utf8Len "a!--b".toList ≤ 39 ∧
    "a!--b".toList.head? ≠ some '-' ∧
    "a!--b".toList.getLast? ≠ some '-' ∧
    List.IsInfix ['-', '-'] "a!--b".toList ∧
    is_valid_github_handle "a!--b".toList ≠ .error .ContainsConsecutiveHyphens ∧
    is_valid_github_handle "a!--b".toList = .error (.ContainsInvalidChar '!') := by decide

/-- C6 (amended): the validator checks, in order, UTF-8 length `> 39`
(`TooLong`), a leading hyphen (`StartedWithHyphen`), a trailing hyphen
(`EndedWithHyphen`), and then a single left-to-right scan in which the first
offending position decides between `ContainsConsecutiveHyphens` (a hyphen
immediately followed by another) and `ContainsInvalidChar` (any character
neither ASCII alphanumeric nor a hyphen); with no offender it accepts. -/
theorem github_handle_checks_in_scan_order :
    ∀ s, is_valid_github_handle s = is_valid_github_handle_amended s := by
  intro s
  unfold is_valid_github_handle is_valid_github_handle_amended
  rw [handleScanLoop_eq_amended]

/-! ## License-policy lemmas -/

/-- The requirements loop accepts exactly when every leaf resolves to a
concrete, OSI-approved id. -/
theorem checkRequirements_ok_iff : ∀ l : List LicenseReq,
    checkRequirements l = .ok () ↔
      ∀ r ∈ l, ∃ id, r.id = some id ∧ id.osi_approved = true := by
  intro l
  induction l with
  | nil => simp [checkRequirements]
  | cons r rest ih =>
    cases hid : r.id with
    | none =>
      simp only [checkRequirements, hid]
      constructor
      · intro h; cases h
      · intro h
        obtain ⟨id, hid2, _⟩ := h r (List.mem_cons_self r rest)
        rw [hid] at hid2; cases hid2
    | some id =>
      cases hosi : id.osi_approved with
      | true =>
        simp only [checkRequirements, hid, hosi, Bool.not_true, Bool.false_eq_true, if_false]
        rw [ih]
        constructor
        · intro h x hx
          rcases List.mem_cons.mp hx with hx | hx
          · exact hx ▸ ⟨id, hid, hosi⟩
          · exact h x hx
        · intro h x hx; exact h x (List.mem_cons_of_mem _ hx)
      | false =>
        simp only [checkRequirements, hid, hosi, Bool.not_false, if_true, if_pos rfl]
        constructor
        · intro h; cases h
        · intro h
          obtain ⟨id2, hid2, hosi2⟩ := h r (List.mem_cons_self r rest)
          rw [hid] at hid2
          cases hid2
          rw [hosi] at hosi2
          cases hosi2

/-- The requirements loop reports the first failing leaf: given a prefix of
good leaves, a failing leaf right after them decides the error. -/
theorem checkRequirements_first_fail :
    ∀ (l1 : List LicenseReq) (r : LicenseReq) (l2 : List LicenseReq),
      (∀ x ∈ l1, ∃ id, x.id = some id ∧ id.osi_approved = true) →
      ((r.id = none → checkRequirements (l1 ++ r :: l2) = .error .ContainsReferencer) ∧
       (∀ id, r.id = some id → id.osi_approved = false →
         checkRequirements (l1 ++ r :: l2) = .error .NotOSIApproved)) := by
  intro l1
  induction l1 with
  | nil =>
    intro r l2 _
    constructor
    · intro hid; simp [checkRequirements, hid]
    · intro id hid hosi; simp [checkRequirements, hid, hosi]
  | cons x rest ih =>
    intro r l2 h
    obtain ⟨id, hid, hosi⟩ := h x (List.mem_cons_self x rest)
    have hrest := ih r l2 fun y hy => h y (List.mem_cons_of_mem _ hy)
    constructor
    · intro hr
      rw [List.cons_append]
      simp only [checkRequirements, hid, hosi, Bool.not_true, Bool.false_eq_true, if_false]
      exact hrest.1 hr
    · intro id2 hr hosi2
      rw [List.cons_append]
      simp only [checkRequirements, hid, hosi, Bool.not_true, Bool.false_eq_true, if_false]
      exact hrest.2 id2 hr hosi2

/-- C7: `is_valid_license` accepts exactly when the external SPDX parse
succeeded and every leaf requirement resolves to a concrete, OSI-approved
license id; on a successfully parsed expression, the first failing leaf (in
the requirement list's order) decides whether the error is
`ContainsReferencer` (unresolved leaf) or `NotOSIApproved` (resolved but not
approved). -/
theorem license_accepts_iff_all_leaves_osi :
    (∀ (p : Except SpdxParseError Expression) (e : Expression),
      is_valid_license p = .ok e ↔
        p = .ok e ∧ ∀ r ∈ e.requirements, ∃ id, r.id = some id ∧ id.osi_approved = true) ∧
    (∀ (expr : Expression) (l1 : List LicenseReq) (r : LicenseReq) (l2 : List LicenseReq),
      expr.requirements = l1 ++ r :: l2 →
      (∀ x ∈ l1, ∃ id, x.id = some id ∧ id.osi_approved = true) →
      ((r.id = none → is_valid_license (.ok expr) = .error .ContainsReferencer) ∧
       (∀ id, r.id = some id → id.osi_approved = false →
         is_valid_license (.ok expr) = .error .NotOSIApproved))) := by
  constructor
  · intro p e
    cases p with
    | error pe =>
      simp only [is_valid_license]
      constructor
      · intro h; cases h
      · rintro ⟨h, -⟩; cases h
    | ok expr =>
      constructor
      · intro h
        cases hc : checkRequirements expr.requirements with
        | error ce => simp only [is_valid_license, hc] at h; cases h
        | ok u =>
          cases u
          simp only [is_valid_license, hc] at h
          injection h with h2
          subst h2
          exact ⟨rfl, (checkRequirements_ok_iff _).mp hc⟩
      · rintro ⟨h, hall⟩
        injection h with h2
        subst h2
        have hc := (checkRequirements_ok_iff _).mpr hall
        simp [is_valid_license, hc]
  · intro expr l1 r l2 hreq h
    have hf := checkRequirements_first_fail l1 r l2 h
    constructor
    · intro hr
      simp [is_valid_license, hreq, hf.1 hr]
    · intro id hr hosi
      simp [is_valid_license, hreq, hf.2 id hr hosi]

/-- Witness for C7: the expression whose leaves are an approved id, then a
referencer, then an unapproved id fails with the referencer error — the first
failing leaf in order. -/
theorem license_reports_first_failing_leaf_concretely :
    is_valid_license (.ok ⟨[⟨some ⟨true⟩⟩, ⟨none⟩, ⟨some ⟨false⟩⟩]⟩)
      = .error .ContainsReferencer :=
  (license_accepts_iff_all_leaves_osi.2 ⟨[⟨some ⟨true⟩⟩, ⟨none⟩, ⟨some ⟨false⟩⟩]⟩
    [⟨some ⟨true⟩⟩] ⟨none⟩ [⟨some ⟨false⟩⟩] rfl (by decide)).1 rfl

/-! ## Ancestor-walk lemmas -/

/-- Soundness of the walk loop: a returned pair is the first list element
with a non-empty match, and everything before it matched empty. -/
theorem tryFindGo_sound (root : FsNode) (hs : Nat) (any : Bool) :
    ∀ (l : List (List String)) (a : List String) (r : Nat),
      tryFindGo root hs any l = .ok (some (a, r)) →
      ∃ l1 l2, l = l1 ++ a :: l2 ∧ (∀ b ∈ l1, project_root root b hs any = .ok 0) ∧
        project_root root a hs any = .ok r ∧ r ≠ 0 := by
  intro l
  induction l with
  | nil => intro a r h; simp [tryFindGo] at h
  | cons x rest ih =>
    intro a r h
    cases hpr : project_root root x hs any with
    | error e => exact Except.noConfusion (by simpa only [tryFindGo, hpr] using h)
    | ok ret =>
      simp only [tryFindGo, hpr] at h
      by_cases hret : ret = 0
      · subst hret
        simp only [bne_self_eq_false, if_false, Bool.false_eq_true] at h
        obtain ⟨l1, l2, hl, h1, h2, h3⟩ := ih a r h
        exact ⟨x :: l1, l2, by rw [hl, List.cons_append],
          fun b hb => by
            rcases List.mem_cons.mp hb with hb | hb
            · exact hb ▸ hpr
            · exact h1 b hb,
          h2, h3⟩
      · have hbne : (ret != 0) = true := by simpa [bne_iff_ne] using hret
        rw [hbne, if_pos rfl] at h
        obtain ⟨ha, hr⟩ : a = x ∧ r = ret := by
          cases h; exact ⟨rfl, rfl⟩
        subst ha; subst hr
        exact ⟨[], rest, rfl, by simp, hpr, hret⟩

/-- Completeness of the walk loop: if a prefix of the list matches empty and
the next element matches non-empty, that element is returned. -/
theorem tryFindGo_complete (root : FsNode) (hs : Nat) (any : Bool) :
    ∀ (l1 : List (List String)) (a : List String) (l2 : List (List String)) (r : Nat),
      (∀ b ∈ l1, project_root root b hs any = .ok 0) →
      project_root root a hs any = .ok r → r ≠ 0 →
      tryFindGo root hs any (l1 ++ a :: l2) = .ok (some (a, r)) := by
  intro l1
  induction l1 with
  | nil =>
    intro a l2 r _ h2 h3
    have hbne : (r != 0) = true := by simpa [bne_iff_ne] using h3
    rw [List.nil_append]
    simp only [tryFindGo, h2, hbne, if_true, if_pos trivial]
  | cons x rest ih =>
    intro a l2 r h1 h2 h3
    have hx := h1 x (List.mem_cons_self x rest)
    rw [List.cons_append]
    simp only [tryFindGo, hx, bne_self_eq_false, Bool.false_eq_true, if_false]
    exact ih a l2 r (fun b hb => h1 b (List.mem_cons_of_mem _ hb)) h2 h3

/-- If every list element matches empty, the walk loop reports none found. -/
theorem tryFindGo_all_empty (root : FsNode) (hs : Nat) (any : Bool) :
    ∀ l : List (List String),
      (∀ b ∈ l, project_root root b hs any = .ok 0) → tryFindGo root hs any l = .ok none := by
  intro l
  induction l with
  | nil => intro _; rfl
  | cons x rest ih =>
    intro h
    have hx := h x (List.mem_cons_self x rest)
    simp only [tryFindGo, hx, bne_self_eq_false, Bool.false_eq_true, if_false]
    exact ih fun b hb => h b (List.mem_cons_of_mem _ hb)

/-- C4: `try_find_project_root` returns exactly the nearest ancestor with a
non-empty directory match, together with that match — it never walks past the
first ancestor that matched anything — and on the concrete tree with
`proj/typst.toml`, resolving from `proj/sub` with only the manifest-file
heuristic yields `proj` with exactly the manifest-file flag. -/
theorem walk_returns_first_matching_ancestor :
    (∀ (root : FsNode) (path : List String) (hs : Nat) (any : Bool) (a : List String) (r : Nat),
      try_find_project_root root path hs any = .ok (some (a, r)) ↔
        ∃ l1 l2, ancestors path = l1 ++ a :: l2 ∧
          (∀ b ∈ l1, project_root root b hs any = .ok 0) ∧
          project_root root a hs any = .ok r ∧ r ≠ 0) ∧
    try_find_project_root exampleFs ["proj", "sub"] Heuristics.MANIFEST_FILE true
      = .ok (some (["proj"], Heuristics.MANIFEST_FILE)) := by
  constructor
  · intro root path hs any a r
    constructor
    · exact tryFindGo_sound root hs any (ancestors path) a r
    · rintro ⟨l1, l2, hl, h1, h2, h3⟩
      rw [try_find_project_root, hl]
      exact tryFindGo_complete root hs any l1 a l2 r h1 h2 h3
  · decide

/-- C5: when no ancestor (the start path included) matches any wanted
heuristic and every listing succeeds — i.e. every ancestor's `project_root`
is `Ok` with the empty set — the walk returns the non-error `Ok(None)`. -/
theorem no_match_returns_ok_none (root : FsNode) (path : List String) (hs : Nat) (any : Bool)
    (h : ∀ a ∈ ancestors path, project_root root a hs any = .ok 0) :
    try_find_project_root root path hs any = .ok none :=
  tryFindGo_all_empty root hs any (ancestors path) h

/-- Witness for C5: a tree whose only file `proj/readme.md` matches nothing,
resolved from `proj` with the recommended (default) heuristic set. -/
theorem no_match_returns_ok_none_on_readme_tree :
    (∀ a ∈ ancestors ["proj"], project_root noMarkerFs a Heuristics.RECOMMENDED true = .ok 0) ∧
    try_find_project_root noMarkerFs ["proj"] Heuristics.RECOMMENDED true = .ok none :=
  ⟨by decide, no_match_returns_ok_none noMarkerFs ["proj"] Heuristics.RECOMMENDED true (by decide)⟩
